import Mathlib

/-!
Verification development for the libchrome IPC primitives: the mojo `WaitSet`
(handle wait set) and the `IPC::ChannelProxy` (channel proxy with thread-safe
send, filter chain and asynchronous close).

The repository ships the wait set's unit tests
(`mojo/public/cpp/system/tests/wait_set_unittest.cc`) and the channel proxy's
header (`ipc/ipc_channel_proxy.h`); the implementation translation units are
absent from the tree.  The definitions below therefore carry doc comments
starting with `Modelled from the spec:` — they embed the behaviour described
by the design document (sections 3, 4.1, 4.2, 5) and by the header comments,
constrained by the observable behaviour the unit tests demand.
-/

namespace Libchrome

/-- Result codes exposed by the wait set and channel proxy APIs, mirroring
the mojo result codes used in the tests (`MOJO_RESULT_OK`,
`MOJO_RESULT_FAILED_PRECONDITION`, `MOJO_RESULT_CANCELLED`,
`MOJO_RESULT_NOT_FOUND`, `MOJO_RESULT_RESOURCE_EXHAUSTED`,
`MOJO_RESULT_ALREADY_EXISTS`, `MOJO_RESULT_UNKNOWN`). -/
inductive MojoResult
  | ok
  | failedPrecondition
  | cancelled
  | notFound
  | resourceExhausted
  | alreadyExists
  | unknown
deriving DecidableEq, Repr

/-- Phase of a registered endpoint, following the spec's per-endpoint state
machine `Registered -> (Ready, Unsatisfiable, Cancelled) -> Removed`.
`idle` is a registered endpoint with no pending result; `ready` has a pending
`Ok` result (requested signal satisfied); `unsat` has a pending
`FailedPrecondition` result (the requested signal can never be satisfied,
e.g. the peer was closed with no more pending data); `cancelled` marks an
endpoint whose owner closed it while registered. -/
inductive Phase
  | idle
  | ready
  | unsat
  | cancelled
deriving DecidableEq, Repr

/-- Registered-endpoint table row: (endpoint identity, requested signal mask,
current phase), per the spec's Registered Endpoint tuple. -/
structure Entry where
  handle : Nat
  mask : Nat
  phase : Phase
deriving DecidableEq, Repr

/-- Wait set registration table.  `entries` keeps registration order; closed
endpoints stay in the table in phase `cancelled` until their terminal result
is reported by a `Wait` call. -/
structure WaitSetState where
  entries : List Entry
deriving DecidableEq, Repr

/-- Whether an entry has a pending result a `Wait` call must report. -/
def Entry.pending (e : Entry) : Bool :=
  match e.phase with
  | Phase.idle => false
  | _ => true

/-- Wait result a pending entry is reported with: `ready` endpoints report
`Ok`, `unsat` report `FailedPrecondition`, `cancelled` report `Cancelled`. -/
def Entry.report (e : Entry) : Nat × MojoResult :=
  (e.handle,
    match e.phase with
    | Phase.idle => MojoResult.unknown
    | Phase.ready => MojoResult.ok
    | Phase.unsat => MojoResult.failedPrecondition
    | Phase.cancelled => MojoResult.cancelled)

/-- Modelled from the spec: `AddHandle(endpoint, signal-mask)` of the absent
`mojo/public/cpp/system/wait_set` implementation.  Registers interest in the
given signals; fails if the endpoint is already registered in this set. -/
def addHandle (s : WaitSetState) (h m : Nat) : MojoResult × WaitSetState :=
  if s.entries.any (fun e => e.handle == h) then
    (MojoResult.alreadyExists, s)
  else
    (MojoResult.ok, ⟨s.entries ++ [⟨h, m, Phase.idle⟩]⟩)

/-- Modelled from the spec: `RemoveHandle(endpoint)` of the absent wait set
implementation.  Unregisters an endpoint that is still registered; returns
`NotFound` if the endpoint was never added, was auto-removed after its
terminal result was reported, or was closed (the unit test
`CloseBeforeWaiting` requires `NotFound` for a closed endpoint even before
its `Cancelled` result has been reported). -/
def removeHandle (s : WaitSetState) (h : Nat) : MojoResult × WaitSetState :=
  match s.entries.find? (fun e => e.handle == h) with
  | none => (MojoResult.notFound, s)
  | some e =>
    if e.phase = Phase.cancelled then (MojoResult.notFound, s)
    else (MojoResult.ok, ⟨s.entries.filter (fun e2 => !(e2.handle == h))⟩)

/-- Modelled from the spec: an external readiness/cancellation notification
updating the phase of the endpoint `h` (if registered and not already
cancelled) to `p`.  The endpoint/signal abstraction itself is an external
collaborator in the spec. -/
def setPhase (s : WaitSetState) (h : Nat) (p : Phase) : WaitSetState :=
  ⟨s.entries.map (fun e =>
    if e.handle == h ∧ e.phase ≠ Phase.cancelled then ⟨e.handle, e.mask, p⟩ else e)⟩

/-- Endpoint `h` becomes ready: its requested signal is satisfied. -/
def signalReady (s : WaitSetState) (h : Nat) : WaitSetState :=
  setPhase s h Phase.ready

/-- Endpoint `h` becomes unsatisfiable: its requested signal can never be
satisfied (e.g. peer closed with no pending data). -/
def signalUnsatisfiable (s : WaitSetState) (h : Nat) : WaitSetState :=
  setPhase s h Phase.unsat

/-- Endpoint `h` is closed by its owner while registered; the wait set marks
it cancelled so that a (possibly concurrent) `Wait` reports `Cancelled`. -/
def closeHandle (s : WaitSetState) (h : Nat) : WaitSetState :=
  setPhase s h Phase.cancelled

/-- Entries with a pending result, in table order. -/
def pendings (es : List Entry) : List Entry :=
  es.filter Entry.pending

/-- Entries with no pending result, in table order. -/
def idles (es : List Entry) : List Entry :=
  es.filter (fun e => !e.pending)

/-- Whether an entry is in the `ready` phase. -/
def Entry.isReady (e : Entry) : Bool :=
  match e.phase with
  | Phase.ready => true
  | _ => false

/-- Ready entries, in table order. -/
def readys (es : List Entry) : List Entry :=
  es.filter Entry.isReady

/-- Number of endpoints with a pending result. -/
def pendingCount (s : WaitSetState) : Nat :=
  (pendings s.entries).length

/-- Modelled from the spec: the scan a `Wait` call performs over the table.
Given remaining output capacity and the table, returns the filled
(endpoint, result) slots, the unconsumed remainder of the table, and the
reported `ready` entries, which stay registered (level-triggered) and are
requeued behind the remainder so results beyond the capacity are reported by
subsequent calls rather than starved. Reported `unsat` / `cancelled` entries
are dropped from the table at the moment they are reported. -/
def waitGo : Nat → List Entry → List (Nat × MojoResult) × List Entry × List Entry
  | 0, es => ([], es, [])
  | _ + 1, [] => ([], [], [])
  | cap + 1, e :: rest =>
    match e.phase with
    | Phase.idle =>
      let t := waitGo (cap + 1) rest
      (t.1, e :: t.2.1, t.2.2)
    | Phase.ready =>
      let t := waitGo cap rest
      ((e.handle, MojoResult.ok) :: t.1, t.2.1, e :: t.2.2)
    | Phase.unsat =>
      let t := waitGo cap rest
      ((e.handle, MojoResult.failedPrecondition) :: t.1, t.2.1, t.2.2)
    | Phase.cancelled =>
      let t := waitGo cap rest
      ((e.handle, MojoResult.cancelled) :: t.1, t.2.1, t.2.2)

/-- Modelled from the spec: one `Wait(capacity, ...)` call that has a chance
to run, i.e. the point where `Wait` stops blocking and fills up to
`capacity` output slots with pending (endpoint, result) pairs.  Returns the
filled slots and the table afterwards. -/
def waitStep (s : WaitSetState) (cap : Nat) : List (Nat × MojoResult) × WaitSetState :=
  let t := waitGo cap s.entries
  (t.1, ⟨t.2.1 ++ t.2.2⟩)

/-- Modelled from the spec: `Wait` blocks the calling context exactly when the
table is nonempty and no registered endpoint has a pending result; with an
empty table it returns immediately with zero results. -/
def waitBlocks (s : WaitSetState) : Prop :=
  s.entries ≠ [] ∧ pendingCount s = 0

instance (s : WaitSetState) : Decidable (waitBlocks s) := by
  unfold waitBlocks; infer_instance

/-- Repeated `Wait` calls with output capacity one: the per-call output lists
and the final table. -/
def iterWait1 : Nat → WaitSetState → List (List (Nat × MojoResult)) × WaitSetState
  | 0, s => ([], s)
  | n + 1, s =>
    let t := waitStep s 1
    let u := iterWait1 n t.2
    (t.1 :: u.1, u.2)

theorem waitGo_nil (cap : Nat) : waitGo cap [] = ([], [], []) := by
  cases cap <;> rfl

theorem waitGo_zero (es : List Entry) : waitGo 0 es = ([], es, []) := by
  cases es <;> rfl

theorem waitGo_cons_idle (cap : Nat) (e : Entry) (rest : List Entry)
    (hph : e.phase = Phase.idle) :
    waitGo (cap + 1) (e :: rest) =
      ((waitGo (cap + 1) rest).1,
       e :: (waitGo (cap + 1) rest).2.1,
       (waitGo (cap + 1) rest).2.2) := by
  simp [waitGo, hph]

theorem waitGo_cons_ready (cap : Nat) (e : Entry) (rest : List Entry)
    (hph : e.phase = Phase.ready) :
    waitGo (cap + 1) (e :: rest) =
      ((e.handle, MojoResult.ok) :: (waitGo cap rest).1,
       (waitGo cap rest).2.1,
       e :: (waitGo cap rest).2.2) := by
  simp [waitGo, hph]

theorem waitGo_cons_unsat (cap : Nat) (e : Entry) (rest : List Entry)
    (hph : e.phase = Phase.unsat) :
    waitGo (cap + 1) (e :: rest) =
      ((e.handle, MojoResult.failedPrecondition) :: (waitGo cap rest).1,
       (waitGo cap rest).2.1,
       (waitGo cap rest).2.2) := by
  simp [waitGo, hph]

theorem waitGo_cons_cancelled (cap : Nat) (e : Entry) (rest : List Entry)
    (hph : e.phase = Phase.cancelled) :
    waitGo (cap + 1) (e :: rest) =
      ((e.handle, MojoResult.cancelled) :: (waitGo cap rest).1,
       (waitGo cap rest).2.1,
       (waitGo cap rest).2.2) := by
  simp [waitGo, hph]

theorem Entry.pending_of_isReady (e : Entry) (h : e.isReady = true) :
    e.pending = true := by
  cases hph : e.phase <;> simp [Entry.isReady, Entry.pending, hph] at h ⊢

/-- With no pending entry, every entry is idle, so the idle sublist is the
whole table. -/
theorem idles_of_no_pending (es : List Entry) (h : pendings es = []) :
    idles es = es := by
  rw [idles, List.filter_eq_self]
  intro e he
  have h2 := List.filter_eq_nil_iff.mp h e he
  simp at h2 ⊢
  exact h2

theorem readys_of_no_pending (es : List Entry) (h : pendings es = []) :
    readys es = [] := by
  rw [readys, List.filter_eq_nil_iff]
  intro e he hr
  exact (List.filter_eq_nil_iff.mp h e he) (Entry.pending_of_isReady e hr)

/-- Characterization of a `Wait` scan with enough output capacity for every
pending result: all pending entries are reported in table order, the idle
entries remain, and the ready entries are requeued. -/
theorem waitGo_full (es : List Entry) (cap : Nat)
    (hcap : (pendings es).length ≤ cap) :
    waitGo cap es = ((pendings es).map Entry.report, idles es, readys es) := by
  induction es generalizing cap with
  | nil => simp [pendings, idles, readys, waitGo_nil]
  | cons e rest ih =>
    cases cap with
    | zero =>
      have hp : pendings (e :: rest) = [] := List.length_eq_zero.mp (Nat.le_zero.mp hcap)
      rw [waitGo_zero, hp, idles_of_no_pending _ hp, readys_of_no_pending _ hp]
      simp
    | succ cap =>
      cases hph : e.phase with
      | idle =>
        have h1 : pendings (e :: rest) = pendings rest := by
          simp [pendings, List.filter_cons, Entry.pending, hph]
        rw [waitGo_cons_idle cap e rest hph, h1, ih (cap + 1) (h1 ▸ hcap)]
        simp [idles, readys, List.filter_cons, Entry.pending, Entry.isReady, hph]
      | ready =>
        have h1 : pendings (e :: rest) = e :: pendings rest := by
          simp [pendings, List.filter_cons, Entry.pending, hph]
        have h2 : (pendings rest).length ≤ cap := by
          rw [h1] at hcap; simpa using hcap
        rw [waitGo_cons_ready cap e rest hph, h1, ih cap h2]
        simp [idles, readys, List.filter_cons, Entry.pending, Entry.isReady,
          Entry.report, hph]
      | unsat =>
        have h1 : pendings (e :: rest) = e :: pendings rest := by
          simp [pendings, List.filter_cons, Entry.pending, hph]
        have h2 : (pendings rest).length ≤ cap := by
          rw [h1] at hcap; simpa using hcap
        rw [waitGo_cons_unsat cap e rest hph, h1, ih cap h2]
        simp [idles, readys, List.filter_cons, Entry.pending, Entry.isReady,
          Entry.report, hph]
      | cancelled =>
        have h1 : pendings (e :: rest) = e :: pendings rest := by
          simp [pendings, List.filter_cons, Entry.pending, hph]
        have h2 : (pendings rest).length ≤ cap := by
          rw [h1] at hcap; simpa using hcap
        rw [waitGo_cons_cancelled cap e rest hph, h1, ih cap h2]
        simp [idles, readys, List.filter_cons, Entry.pending, Entry.isReady,
          Entry.report, hph]

/-- A `Wait` scan fills exactly `min capacity (number of pending results)`
output slots. -/
theorem waitGo_length (es : List Entry) (cap : Nat) :
    ((waitGo cap es).1).length = min cap (pendings es).length := by
  induction es generalizing cap with
  | nil => simp [waitGo_nil, pendings]
  | cons e rest ih =>
    cases cap with
    | zero => simp [waitGo_zero]
    | succ cap =>
      cases hph : e.phase with
      | idle =>
        rw [waitGo_cons_idle cap e rest hph]
        simp [pendings, List.filter_cons, Entry.pending, hph] at ih ⊢
        exact ih (cap + 1)
      | ready =>
        rw [waitGo_cons_ready cap e rest hph]
        simp [pendings, List.filter_cons, Entry.pending, hph]
        rw [ih cap, pendings]
        exact (Nat.succ_min_succ cap _).symm
      | unsat =>
        rw [waitGo_cons_unsat cap e rest hph]
        simp [pendings, List.filter_cons, Entry.pending, hph]
        rw [ih cap, pendings]
        exact (Nat.succ_min_succ cap _).symm
      | cancelled =>
        rw [waitGo_cons_cancelled cap e rest hph]
        simp [pendings, List.filter_cons, Entry.pending, hph]
        rw [ih cap, pendings]
        exact (Nat.succ_min_succ cap _).symm

/-- A unit-capacity `Wait` scan skips an idle head entry and leaves it in
place. -/
theorem waitStep_cons_idle (e : Entry) (es : List Entry)
    (hph : e.phase = Phase.idle) :
    waitStep ⟨e :: es⟩ 1 =
      ((waitStep ⟨es⟩ 1).1, ⟨e :: (waitStep ⟨es⟩ 1).2.entries⟩) := by
  simp [waitStep, waitGo_cons_idle 0 e es hph]

/-- Iterated unit-capacity `Wait` calls keep an idle head entry in place and
report exactly what they report on the tail. -/
theorem iterWait1_cons_idle (n : Nat) (e : Entry) (es : List Entry)
    (hph : e.phase = Phase.idle) :
    iterWait1 n ⟨e :: es⟩ =
      ((iterWait1 n ⟨es⟩).1, ⟨e :: (iterWait1 n ⟨es⟩).2.entries⟩) := by
  induction n generalizing es with
  | zero => rfl
  | succ n ih =>
    simp only [iterWait1, waitStep_cons_idle e es hph]
    rw [ih (waitStep ⟨es⟩ 1).2.entries]

/-- Main characterization of repeated unit-capacity `Wait` calls: starting
from a table `front ++ back` where every entry of `back` is ready, one call
per pending entry of `front` reports exactly the pending entries of `front`,
one per call and in table order; idle entries remain, terminal entries are
removed, and reported ready entries are requeued behind `back`. -/
theorem iterWait1_run (front back : List Entry)
    (hb : ∀ e ∈ back, e.phase = Phase.ready) :
    iterWait1 (pendings front).length ⟨front ++ back⟩ =
      ((pendings front).map (fun e => [e.report]),
       ⟨idles front ++ back ++ readys front⟩) := by
  induction front generalizing back with
  | nil => simp [pendings, idles, readys, iterWait1]
  | cons e f ih =>
    cases hph : e.phase with
    | idle =>
      have h1 : pendings (e :: f) = pendings f := by
        simp [pendings, List.filter_cons, Entry.pending, hph]
      have h2 : idles (e :: f) = e :: idles f := by
        simp [idles, List.filter_cons, Entry.pending, hph]
      have h3 : readys (e :: f) = readys f := by
        simp [readys, List.filter_cons, Entry.isReady, hph]
      rw [h1, h2, h3, List.cons_append, iterWait1_cons_idle _ e _ hph, ih back hb]
      simp
    | ready =>
      have h1 : pendings (e :: f) = e :: pendings f := by
        simp [pendings, List.filter_cons, Entry.pending, hph]
      have h2 : idles (e :: f) = idles f := by
        simp [idles, List.filter_cons, Entry.pending, hph]
      have h3 : readys (e :: f) = e :: readys f := by
        simp [readys, List.filter_cons, Entry.isReady, hph]
      have hstep : waitStep ⟨e :: (f ++ back)⟩ 1 =
          ([(e.handle, MojoResult.ok)], ⟨f ++ (back ++ [e])⟩) := by
        simp [waitStep, waitGo_cons_ready 0 _ _ hph, waitGo_zero]
      have hb2 : ∀ x ∈ back ++ [e], x.phase = Phase.ready := by
        intro x hx
        rcases List.mem_append.mp hx with hx | hx
        · exact hb x hx
        · rw [List.mem_singleton.mp hx]; exact hph
      rw [h1, h2, h3]
      simp only [List.length_cons, iterWait1, List.cons_append, hstep, ih (back ++ [e]) hb2]
      simp [Entry.report, hph, List.append_assoc]
    | unsat =>
      have h1 : pendings (e :: f) = e :: pendings f := by
        simp [pendings, List.filter_cons, Entry.pending, hph]
      have h2 : idles (e :: f) = idles f := by
        simp [idles, List.filter_cons, Entry.pending, hph]
      have h3 : readys (e :: f) = readys f := by
        simp [readys, List.filter_cons, Entry.isReady, hph]
      have hstep : waitStep ⟨e :: (f ++ back)⟩ 1 =
          ([(e.handle, MojoResult.failedPrecondition)], ⟨f ++ back⟩) := by
        simp [waitStep, waitGo_cons_unsat 0 _ _ hph, waitGo_zero]
      rw [h1, h2, h3]
      simp only [List.length_cons, iterWait1, List.cons_append, hstep, ih back hb]
      simp [Entry.report, hph]
    | cancelled =>
      have h1 : pendings (e :: f) = e :: pendings f := by
        simp [pendings, List.filter_cons, Entry.pending, hph]
      have h2 : idles (e :: f) = idles f := by
        simp [idles, List.filter_cons, Entry.pending, hph]
      have h3 : readys (e :: f) = readys f := by
        simp [readys, List.filter_cons, Entry.isReady, hph]
      have hstep : waitStep ⟨e :: (f ++ back)⟩ 1 =
          ([(e.handle, MojoResult.cancelled)], ⟨f ++ back⟩) := by
        simp [waitStep, waitGo_cons_cancelled 0 _ _ hph, waitGo_zero]
      rw [h1, h2, h3]
      simp only [List.length_cons, iterWait1, List.cons_append, hstep, ih back hb]
      simp [Entry.report, hph]

/-- Whether an output slot is a terminal (`FailedPrecondition` or
`Cancelled`) report for endpoint `h`. -/
def isTerminalReport (h : Nat) (p : Nat × MojoResult) : Bool :=
  p.1 == h &&
    (p.2 == MojoResult.failedPrecondition || p.2 == MojoResult.cancelled)

/-- Number of terminal reports for endpoint `h` across the per-call outputs
of a sequence of `Wait` calls. -/
def terminalReportCount (h : Nat) (outs : List (List (Nat × MojoResult))) : Nat :=
  (outs.map (fun o => (o.filter (isTerminalReport h)).length)).sum

theorem terminalReportCount_map (h : Nat) (l : List Entry) :
    terminalReportCount h (l.map (fun e => [e.report])) =
      l.countP (fun e => isTerminalReport h e.report) := by
  induction l with
  | nil => rfl
  | cons e t ih =>
    simp only [terminalReportCount, List.map_cons, List.sum_cons] at ih ⊢
    rw [ih, List.countP_cons, List.filter_singleton]
    by_cases hp : isTerminalReport h e.report = true
    · simp [hp]; omega
    · simp at hp
      simp [hp]

/-- With pairwise-distinct handles, a predicate that holds for the entry of
handle `h` and implies having handle `h` is matched by exactly one entry. -/
theorem countP_eq_one_of_unique (l : List Entry) (h : Nat) (p : Entry → Bool)
    (e : Entry) (hnd : (l.map Entry.handle).Nodup)
    (he : e ∈ l) (heh : e.handle = h) (hpe : p e = true)
    (hall : ∀ e2, p e2 = true → e2.handle = h) :
    l.countP p = 1 := by
  induction l with
  | nil => cases he
  | cons a t ih =>
    rw [List.map_cons, List.nodup_cons] at hnd
    rcases List.mem_cons.mp he with rfl | het
    · have ht : t.countP p = 0 := by
        rw [List.countP_eq_zero]
        intro e2 he2 hp2
        apply hnd.1
        have hm : e2.handle ∈ t.map Entry.handle :=
          List.mem_map_of_mem Entry.handle he2
        rwa [hall e2 hp2, ← heh] at hm
      rw [List.countP_cons, ht, hpe]
      simp
    · have hpa : ¬ p a = true := by
        intro hb
        apply hnd.1
        have hm : e.handle ∈ t.map Entry.handle :=
          List.mem_map_of_mem Entry.handle het
        rwa [heh, ← hall a hb] at hm
      rw [List.countP_cons, ih hnd.2 het]
      simp [hpa]

theorem Entry.pending_of_terminal (e : Entry)
    (hterm : e.phase = Phase.unsat ∨ e.phase = Phase.cancelled) :
    e.pending = true := by
  rcases hterm with hph | hph <;> simp [Entry.pending, hph]

/-- C1.  Exactly-once terminal delivery: starting from any table with
pairwise-distinct handles in which endpoint `h` has reached a terminal state
(`unsat`, i.e. unsatisfiable, or `cancelled`), running one unit-capacity
`Wait` call per pending result reports a terminal result for `h` in exactly
one of those calls, and `RemoveHandle h` on the resulting wait set returns
`NotFound`. -/
theorem c1_exactly_once_terminal (s : WaitSetState) (h : Nat) (e : Entry)
    (hnd : (s.entries.map Entry.handle).Nodup)
    (he : e ∈ s.entries) (heh : e.handle = h)
    (hterm : e.phase = Phase.unsat ∨ e.phase = Phase.cancelled) :
    terminalReportCount h (iterWait1 (pendingCount s) s).1 = 1 ∧
    (removeHandle (iterWait1 (pendingCount s) s).2 h).1 = MojoResult.notFound := by
  have hrun := iterWait1_run s.entries [] (by intro x hx; cases hx)
  have hs : (⟨s.entries ++ []⟩ : WaitSetState) = s := by simp
  rw [hs] at hrun
  have hpc : pendingCount s = (pendings s.entries).length := rfl
  rw [hpc, hrun]
  constructor
  · rw [terminalReportCount_map]
    apply countP_eq_one_of_unique (pendings s.entries) h _ e
    · exact ((List.filter_sublist s.entries).map Entry.handle).nodup hnd
    · exact List.mem_filter.mpr ⟨he, Entry.pending_of_terminal e hterm⟩
    · exact heh
    · rcases hterm with hph | hph <;>
        simp [isTerminalReport, Entry.report, hph, heh]
    · intro e2 hp2
      simp only [isTerminalReport, Entry.report, Bool.and_eq_true, beq_iff_eq] at hp2
      exact hp2.1
  · have hfind : (idles s.entries ++ [] ++ readys s.entries).find?
        (fun e2 : Entry => e2.handle == h) = none := by
      rw [List.find?_eq_none]
      intro x hx
      simp only [List.append_nil, List.mem_append] at hx
      intro hxh
      have hxh2 : x.handle = h := by simpa using hxh
      have hxmem : x ∈ s.entries := by
        rcases hx with hx | hx
        · exact (List.mem_filter.mp hx).1
        · exact (List.mem_filter.mp hx).1
      have hxe : x = e :=
        List.inj_on_of_nodup_map hnd hxmem he (by rw [hxh2, heh])
      rcases hx with hx | hx
      · have hp := (List.mem_filter.mp hx).2
        rw [hxe] at hp
        rw [Entry.pending_of_terminal e hterm] at hp
        cases hp
      · have hp := (List.mem_filter.mp hx).2
        rw [hxe] at hp
        rcases hterm with hph | hph <;> simp [Entry.isReady, hph] at hp
    simp only [removeHandle, hfind]

/-- C1 witness: a concrete wait set with one cancelled endpoint. -/
theorem c1_exactly_once_terminal_witness :
    terminalReportCount 7
        (iterWait1 (pendingCount ⟨[⟨7, 1, Phase.cancelled⟩]⟩)
          ⟨[⟨7, 1, Phase.cancelled⟩]⟩).1 = 1 ∧
    (removeHandle
        (iterWait1 (pendingCount ⟨[⟨7, 1, Phase.cancelled⟩]⟩)
          ⟨[⟨7, 1, Phase.cancelled⟩]⟩).2 7).1 = MojoResult.notFound :=
  c1_exactly_once_terminal ⟨[⟨7, 1, Phase.cancelled⟩]⟩ 7 ⟨7, 1, Phase.cancelled⟩
    (by decide) (by decide) (by decide) (by decide)

theorem flatten_map_singleton {α β : Type} (l : List α) (f : α → β) :
    (l.map (fun a => [f a])).flatten = l.map f := by
  induction l with
  | nil => rfl
  | cons a t ih => simp [ih]

theorem Entry.phase_of_not_pending (e : Entry) (h : e.pending = false) :
    e.phase = Phase.idle := by
  cases hph : e.phase <;> simp [Entry.pending, hph] at h ⊢

/-- C2.  No lost events under capacity pressure, over an arbitrary table
with pairwise-distinct handles: (a) a `Wait` whose output capacity does not
exceed the number of pending results fills exactly `capacity` slots, and
(b) one unit-capacity `Wait` call per pending result fills exactly one slot
per call and, across the calls, reports every pending result exactly once —
ready endpoints with `Ok`, unsatisfiable and cancelled endpoints with their
terminal result; nothing is dropped and no endpoint is reported twice. -/
theorem c2_no_lost_events (s : WaitSetState)
    (hnd : (s.entries.map Entry.handle).Nodup) :
    (∀ cap, cap ≤ pendingCount s → ((waitStep s cap).1).length = cap) ∧
    (∀ o ∈ (iterWait1 (pendingCount s) s).1, o.length = 1) ∧
    ((iterWait1 (pendingCount s) s).1).flatten =
      (pendings s.entries).map Entry.report ∧
    ((((iterWait1 (pendingCount s) s).1).flatten.map Prod.fst).Nodup) := by
  have hrun := iterWait1_run s.entries [] (by intro x hx; cases hx)
  have hs : (⟨s.entries ++ []⟩ : WaitSetState) = s := by simp
  rw [hs] at hrun
  have hpc : pendingCount s = (pendings s.entries).length := rfl
  refine ⟨?_, ?_, ?_, ?_⟩
  · intro cap hcap
    rw [waitStep]
    simp only [waitGo_length]
    rw [pendingCount] at hcap
    omega
  · intro o ho
    rw [hpc, hrun] at ho
    obtain ⟨e, _, rfl⟩ := List.mem_map.mp ho
    rfl
  · rw [hpc, hrun, flatten_map_singleton]
  · rw [hpc, hrun, flatten_map_singleton]
    have hmm : ((pendings s.entries).map Entry.report).map Prod.fst =
        (pendings s.entries).map Entry.handle := by
      rw [List.map_map]; rfl
    rw [hmm]
    exact ((List.filter_sublist s.entries).map Entry.handle).nodup hnd

/-- C2 witness: two cancelled endpoints drained over unit-capacity calls,
as in the `CloseBeforeWaiting` unit test. -/
theorem c2_no_lost_events_witness :
    ((waitStep ⟨[⟨1, 1, Phase.cancelled⟩, ⟨2, 1, Phase.cancelled⟩]⟩ 1).1).length = 1 ∧
    ((iterWait1 (pendingCount ⟨[⟨1, 1, Phase.cancelled⟩, ⟨2, 1, Phase.cancelled⟩]⟩)
        ⟨[⟨1, 1, Phase.cancelled⟩, ⟨2, 1, Phase.cancelled⟩]⟩).1).flatten =
      (pendings [⟨1, 1, Phase.cancelled⟩, ⟨2, 1, Phase.cancelled⟩]).map Entry.report :=
  ⟨(c2_no_lost_events ⟨[⟨1, 1, Phase.cancelled⟩, ⟨2, 1, Phase.cancelled⟩]⟩
      (by decide)).1 1 (by decide),
   (c2_no_lost_events ⟨[⟨1, 1, Phase.cancelled⟩, ⟨2, 1, Phase.cancelled⟩]⟩
      (by decide)).2.2.1⟩

theorem waitGo_sub (cap : Nat) (es : List Entry) (x : Entry)
    (hx : x ∈ (waitGo cap es).2.1 ++ (waitGo cap es).2.2) : x ∈ es := by
  induction es generalizing cap with
  | nil => rw [waitGo_nil] at hx; cases hx
  | cons e rest ih =>
    cases cap with
    | zero =>
      rw [waitGo_zero] at hx
      simpa using hx
    | succ cap =>
      cases hph : e.phase with
      | idle =>
        rw [waitGo_cons_idle cap e rest hph] at hx
        simp only [List.cons_append, List.mem_cons, List.mem_append] at hx
        rcases hx with rfl | hx | hx
        · exact List.mem_cons_self x rest
        · exact List.mem_cons_of_mem e (ih (cap + 1) (List.mem_append.mpr (Or.inl hx)))
        · exact List.mem_cons_of_mem e (ih (cap + 1) (List.mem_append.mpr (Or.inr hx)))
      | ready =>
        rw [waitGo_cons_ready cap e rest hph] at hx
        simp only [List.mem_append, List.mem_cons] at hx
        rcases hx with hx | hx | hx
        · exact List.mem_cons_of_mem e (ih cap (List.mem_append.mpr (Or.inl hx)))
        · rw [hx]; exact List.mem_cons_self e rest
        · exact List.mem_cons_of_mem e (ih cap (List.mem_append.mpr (Or.inr hx)))
      | unsat =>
        rw [waitGo_cons_unsat cap e rest hph] at hx
        exact List.mem_cons_of_mem e (ih cap hx)
      | cancelled =>
        rw [waitGo_cons_cancelled cap e rest hph] at hx
        exact List.mem_cons_of_mem e (ih cap hx)

theorem waitGo_ok_mem (cap : Nat) (es : List Entry) (h : Nat)
    (hmem : (h, MojoResult.ok) ∈ (waitGo cap es).1) :
    ∃ x ∈ (waitGo cap es).2.2, x.handle = h := by
  induction es generalizing cap with
  | nil => rw [waitGo_nil] at hmem; cases hmem
  | cons e rest ih =>
    cases cap with
    | zero => rw [waitGo_zero] at hmem; cases hmem
    | succ cap =>
      cases hph : e.phase with
      | idle =>
        rw [waitGo_cons_idle cap e rest hph] at hmem ⊢
        exact ih (cap + 1) hmem
      | ready =>
        rw [waitGo_cons_ready cap e rest hph] at hmem ⊢
        rcases List.mem_cons.mp hmem with heq | hmem2
        · exact ⟨e, List.mem_cons_self e _, ((Prod.mk.injEq _ _ _ _).mp heq).1.symm⟩
        · obtain ⟨x, hx, hxh⟩ := ih cap hmem2
          exact ⟨x, List.mem_cons_of_mem e hx, hxh⟩
      | unsat =>
        rw [waitGo_cons_unsat cap e rest hph] at hmem ⊢
        rcases List.mem_cons.mp hmem with heq | hmem2
        · cases ((Prod.mk.injEq _ _ _ _).mp heq).2
        · exact ih cap hmem2
      | cancelled =>
        rw [waitGo_cons_cancelled cap e rest hph] at hmem ⊢
        rcases List.mem_cons.mp hmem with heq | hmem2
        · cases ((Prod.mk.injEq _ _ _ _).mp heq).2
        · exact ih cap hmem2

theorem waitGo_terminal_src (cap : Nat) (es : List Entry) (h : Nat)
    (r : MojoResult)
    (hr : r = MojoResult.failedPrecondition ∨ r = MojoResult.cancelled)
    (hmem : (h, r) ∈ (waitGo cap es).1) : h ∈ es.map Entry.handle := by
  induction es generalizing cap with
  | nil => rw [waitGo_nil] at hmem; cases hmem
  | cons e rest ih =>
    cases cap with
    | zero => rw [waitGo_zero] at hmem; cases hmem
    | succ cap =>
      cases hph : e.phase with
      | idle =>
        rw [waitGo_cons_idle cap e rest hph] at hmem
        exact List.mem_cons_of_mem _ (ih (cap + 1) hmem)
      | ready =>
        rw [waitGo_cons_ready cap e rest hph] at hmem
        rcases List.mem_cons.mp hmem with heq | hmem2
        · rcases hr with hr | hr <;> rw [hr] at heq <;>
            cases ((Prod.mk.injEq _ _ _ _).mp heq).2
        · exact List.mem_cons_of_mem _ (ih cap hmem2)
      | unsat =>
        rw [waitGo_cons_unsat cap e rest hph] at hmem
        rcases List.mem_cons.mp hmem with heq | hmem2
        · rw [List.map_cons, ((Prod.mk.injEq _ _ _ _).mp heq).1]
          exact List.mem_cons_self _ _
        · exact List.mem_cons_of_mem _ (ih cap hmem2)
      | cancelled =>
        rw [waitGo_cons_cancelled cap e rest hph] at hmem
        rcases List.mem_cons.mp hmem with heq | hmem2
        · rw [List.map_cons, ((Prod.mk.injEq _ _ _ _).mp heq).1]
          exact List.mem_cons_self _ _
        · exact List.mem_cons_of_mem _ (ih cap hmem2)

theorem waitGo_terminal_removed (cap : Nat) (es : List Entry) (h : Nat)
    (r : MojoResult) (hnd : (es.map Entry.handle).Nodup)
    (hr : r = MojoResult.failedPrecondition ∨ r = MojoResult.cancelled)
    (hmem : (h, r) ∈ (waitGo cap es).1) :
    ∀ x, x ∈ (waitGo cap es).2.1 ++ (waitGo cap es).2.2 → x.handle ≠ h := by
  induction es generalizing cap with
  | nil => rw [waitGo_nil] at hmem; cases hmem
  | cons e rest ih =>
    rw [List.map_cons, List.nodup_cons] at hnd
    cases cap with
    | zero => rw [waitGo_zero] at hmem; cases hmem
    | succ cap =>
      cases hph : e.phase with
      | idle =>
        rw [waitGo_cons_idle cap e rest hph] at hmem ⊢
        intro x hx
        have hhrest : h ∈ rest.map Entry.handle :=
          waitGo_terminal_src (cap + 1) rest h r hr hmem
        simp only [List.cons_append, List.mem_cons, List.mem_append] at hx
        rcases hx with rfl | hx | hx
        · intro hxh; rw [hxh] at hnd; exact hnd.1 hhrest
        · exact ih (cap + 1) hnd.2 hmem x (List.mem_append.mpr (Or.inl hx))
        · exact ih (cap + 1) hnd.2 hmem x (List.mem_append.mpr (Or.inr hx))
      | ready =>
        rw [waitGo_cons_ready cap e rest hph] at hmem ⊢
        have hmem2 : (h, r) ∈ (waitGo cap rest).1 := by
          rcases List.mem_cons.mp hmem with heq | hmem2
          · rcases hr with hr2 | hr2 <;> rw [hr2] at heq <;>
              cases ((Prod.mk.injEq _ _ _ _).mp heq).2
          · exact hmem2
        have hhrest : h ∈ rest.map Entry.handle :=
          waitGo_terminal_src cap rest h r hr hmem2
        intro x hx
        simp only [List.mem_append, List.mem_cons] at hx
        rcases hx with hx | hx | hx
        · exact ih cap hnd.2 hmem2 x (List.mem_append.mpr (Or.inl hx))
        · rw [hx]; intro hxh; rw [hxh] at hnd; exact hnd.1 hhrest
        · exact ih cap hnd.2 hmem2 x (List.mem_append.mpr (Or.inr hx))
      | unsat =>
        rw [waitGo_cons_unsat cap e rest hph] at hmem ⊢
        intro x hx
        have hxrest : x ∈ rest := waitGo_sub cap rest x hx
        rcases List.mem_cons.mp hmem with heq | hmem2
        · have hhe : e.handle = h := ((Prod.mk.injEq _ _ _ _).mp heq).1.symm
          intro hxh
          apply hnd.1
          rw [hhe, ← hxh]
          exact List.mem_map_of_mem Entry.handle hxrest
        · exact ih cap hnd.2 hmem2 x hx
      | cancelled =>
        rw [waitGo_cons_cancelled cap e rest hph] at hmem ⊢
        intro x hx
        have hxrest : x ∈ rest := waitGo_sub cap rest x hx
        rcases List.mem_cons.mp hmem with heq | hmem2
        · have hhe : e.handle = h := ((Prod.mk.injEq _ _ _ _).mp heq).1.symm
          intro hxh
          apply hnd.1
          rw [hhe, ← hxh]
          exact List.mem_map_of_mem Entry.handle hxrest
        · exact ih cap hnd.2 hmem2 x hx

/-- C3.  Level-triggered `Ok` vs terminal removal: if a `Wait` call reports
endpoint `h` with `Ok`, `h` is still registered in the table afterwards
(so a later readiness transition can produce another `Ok`); if it reports
`h` with `FailedPrecondition` (unsatisfiable) or `Cancelled`, no entry for
`h` remains in the table the moment the call returns. -/
theorem c3_ok_keeps_terminal_removes (s : WaitSetState) (cap : Nat) (h : Nat)
    (hnd : (s.entries.map Entry.handle).Nodup) :
    ((h, MojoResult.ok) ∈ (waitStep s cap).1 →
        ∃ x ∈ (waitStep s cap).2.entries, x.handle = h) ∧
    (∀ r, (r = MojoResult.failedPrecondition ∨ r = MojoResult.cancelled) →
        (h, r) ∈ (waitStep s cap).1 →
        ∀ x ∈ (waitStep s cap).2.entries, x.handle ≠ h) := by
  constructor
  · intro hmem
    obtain ⟨x, hx, hxh⟩ := waitGo_ok_mem cap s.entries h hmem
    exact ⟨x, List.mem_append.mpr (Or.inr hx), hxh⟩
  · intro r hr hmem x hx
    exact waitGo_terminal_removed cap s.entries h r hnd hr hmem x hx

/-- C3 witness: a ready endpoint stays registered after its `Ok` report and
a cancelled endpoint is gone after its `Cancelled` report. -/
theorem c3_ok_keeps_terminal_removes_witness :
    (∃ x ∈ (waitStep ⟨[⟨1, 1, Phase.ready⟩, ⟨2, 1, Phase.cancelled⟩]⟩ 2).2.entries,
        x.handle = 1) ∧
    (∀ x ∈ (waitStep ⟨[⟨1, 1, Phase.ready⟩, ⟨2, 1, Phase.cancelled⟩]⟩ 2).2.entries,
        x.handle ≠ 2) :=
  ⟨(c3_ok_keeps_terminal_removes ⟨[⟨1, 1, Phase.ready⟩, ⟨2, 1, Phase.cancelled⟩]⟩
      2 1 (by decide)).1 (by decide),
   (c3_ok_keeps_terminal_removes ⟨[⟨1, 1, Phase.ready⟩, ⟨2, 1, Phase.cancelled⟩]⟩
      2 2 (by decide)).2 MojoResult.cancelled (Or.inr rfl) (by decide)⟩

/-- C4.  `Wait` on an empty wait set never blocks and returns immediately
with zero filled slots, for every requested output capacity. -/
theorem c4_empty_wait_immediate (cap : Nat) :
    waitStep ⟨[]⟩ cap = ([], ⟨[]⟩) ∧ ¬ waitBlocks ⟨[]⟩ := by
  constructor
  · simp [waitStep, waitGo_nil]
  · intro hb
    exact hb.1 rfl

theorem waitGo_result_range (cap : Nat) (es : List Entry)
    (p : Nat × MojoResult) (hp : p ∈ (waitGo cap es).1) :
    p.2 = MojoResult.ok ∨ p.2 = MojoResult.failedPrecondition ∨
      p.2 = MojoResult.cancelled := by
  induction es generalizing cap with
  | nil => rw [waitGo_nil] at hp; cases hp
  | cons e rest ih =>
    cases cap with
    | zero => rw [waitGo_zero] at hp; cases hp
    | succ cap =>
      cases hph : e.phase with
      | idle =>
        rw [waitGo_cons_idle cap e rest hph] at hp
        exact ih (cap + 1) hp
      | ready =>
        rw [waitGo_cons_ready cap e rest hph] at hp
        rcases List.mem_cons.mp hp with rfl | hp2
        · exact Or.inl rfl
        · exact ih cap hp2
      | unsat =>
        rw [waitGo_cons_unsat cap e rest hph] at hp
        rcases List.mem_cons.mp hp with rfl | hp2
        · exact Or.inr (Or.inl rfl)
        · exact ih cap hp2
      | cancelled =>
        rw [waitGo_cons_cancelled cap e rest hph] at hp
        rcases List.mem_cons.mp hp with rfl | hp2
        · exact Or.inr (Or.inr rfl)
        · exact ih cap hp2

/-- C5.  An endpoint whose requested signal can never be satisfied (peer
closed with no more pending data, phase `unsat`) is reported by the next
sufficiently-large `Wait` with `FailedPrecondition`, and no `Wait` call on
any wait set ever fills a slot with `NotFound` or `ResourceExhausted` —
those are operation-level results of add/remove only. -/
theorem c5_unsatisfiable_and_wait_result_range (s : WaitSetState) (e : Entry)
    (he : e ∈ s.entries) (hph : e.phase = Phase.unsat) :
    (e.handle, MojoResult.failedPrecondition) ∈
      (waitStep s (pendingCount s)).1 ∧
    ∀ (s2 : WaitSetState) (cap : Nat) (p : Nat × MojoResult),
      p ∈ (waitStep s2 cap).1 →
      p.2 ≠ MojoResult.notFound ∧ p.2 ≠ MojoResult.resourceExhausted := by
  constructor
  · have hfull := waitGo_full s.entries (pendingCount s) (Nat.le_refl _)
    rw [waitStep]
    simp only [hfull]
    have hepend : e ∈ pendings s.entries :=
      List.mem_filter.mpr ⟨he, by simp [Entry.pending, hph]⟩
    have hrep : Entry.report e = (e.handle, MojoResult.failedPrecondition) := by
      simp [Entry.report, hph]
    exact hrep ▸ List.mem_map_of_mem Entry.report hepend
  · intro s2 cap p hp
    rcases waitGo_result_range cap s2.entries p hp with hr | hr | hr <;>
      rw [hr] <;> exact ⟨(by decide), (by decide)⟩

/-- C5 witness: one unsatisfiable endpoint. -/
theorem c5_unsatisfiable_and_wait_result_range_witness :
    (4, MojoResult.failedPrecondition) ∈
      (waitStep ⟨[⟨4, 1, Phase.unsat⟩]⟩ (pendingCount ⟨[⟨4, 1, Phase.unsat⟩]⟩)).1 :=
  (c5_unsatisfiable_and_wait_result_range ⟨[⟨4, 1, Phase.unsat⟩]⟩
    ⟨4, 1, Phase.unsat⟩ (by decide) rfl).1

/-- C6.  Concurrent cancellation, sequentialized as an interleaving: if a
`Wait` is blocked on `s` (nonempty table, nothing pending) and another
execution context closes the registered endpoint `h`, the wait set has a
pending result afterwards — the blocked `Wait` wakes up — and the woken
`Wait` reports `(h, Cancelled)`. -/
theorem c6_close_while_blocked (s : WaitSetState) (h : Nat) (e : Entry)
    (he : e ∈ s.entries) (heh : e.handle = h)
    (hblocked : waitBlocks s) :
    0 < pendingCount (closeHandle s h) ∧
    (h, MojoResult.cancelled) ∈
      (waitStep (closeHandle s h) (pendingCount (closeHandle s h))).1 := by
  have hidle : e.phase = Phase.idle := by
    have hp : pendings s.entries = [] := List.length_eq_zero.mp hblocked.2
    have := List.filter_eq_nil_iff.mp hp e he
    exact Entry.phase_of_not_pending e (by simpa using this)
  have hg : (if e.handle == h ∧ e.phase ≠ Phase.cancelled then
      (⟨e.handle, e.mask, Phase.cancelled⟩ : Entry) else e) =
      ⟨h, e.mask, Phase.cancelled⟩ := by
    rw [if_pos ⟨by simp [heh], by rw [hidle]; intro hc; cases hc⟩, heh]
  have hmem : (⟨h, e.mask, Phase.cancelled⟩ : Entry) ∈ (closeHandle s h).entries := by
    rw [closeHandle, setPhase]
    exact hg ▸ List.mem_map_of_mem _ he
  have hpend : (⟨h, e.mask, Phase.cancelled⟩ : Entry) ∈
      pendings (closeHandle s h).entries :=
    List.mem_filter.mpr ⟨hmem, by simp [Entry.pending]⟩
  constructor
  · exact List.length_pos_of_mem hpend
  · have hfull := waitGo_full (closeHandle s h).entries
      (pendingCount (closeHandle s h)) (Nat.le_refl _)
    rw [waitStep]
    simp only [hfull]
    have hrep : Entry.report ⟨h, e.mask, Phase.cancelled⟩ =
        (h, MojoResult.cancelled) := rfl
    exact hrep ▸ List.mem_map_of_mem Entry.report hpend

/-- C6 witness: one idle endpoint closed from another context. -/
theorem c6_close_while_blocked_witness :
    0 < pendingCount (closeHandle ⟨[⟨9, 1, Phase.idle⟩]⟩ 9) ∧
    (9, MojoResult.cancelled) ∈
      (waitStep (closeHandle ⟨[⟨9, 1, Phase.idle⟩]⟩ 9)
        (pendingCount (closeHandle ⟨[⟨9, 1, Phase.idle⟩]⟩ 9))).1 :=
  c6_close_while_blocked ⟨[⟨9, 1, Phase.idle⟩]⟩ 9 ⟨9, 1, Phase.idle⟩
    (by decide) rfl (by decide)

/-- Modelled from the spec: the external channel collaborator consumed by
the channel proxy (spec section 6) — `send(message) -> bool` plus the
constant capability flag saying whether `Send` is thread-safe
(`channel_send_thread_safe_` in `ipc_channel_proxy.h`).  `accept` abstracts
whether the channel takes a given message; `sent` logs the messages handed
to the channel, in order.  Messages are abstracted to `Nat` payload ids. -/
structure ChannelState where
  sendThreadSafe : Bool
  accept : Nat → Bool
  sent : List Nat

/-- A task posted to the background (IPC) context task runner. -/
inductive ProxyTask
  | sendTask (m : Nat)
  | closeTask

/-- Modelled from the spec: the owner-visible state of
`ChannelProxy::Context` (the `ipc_channel_proxy.cc` translation unit is
absent) — the channel reference (`channel_`, `none` before creation and
after teardown) and the queue of tasks posted to the background context,
in post order. -/
structure ProxyState where
  channel : Option ChannelState
  ipcQueue : List ProxyTask

/-- The external channel accepts or rejects a message; on acceptance the
message is appended to the handed-to-channel log. -/
def channelSend (c : ChannelState) (m : Nat) : Bool × ChannelState :=
  if c.accept m then (true, ⟨c.sendThreadSafe, c.accept, c.sent ++ [m]⟩)
  else (false, c)

/-- Modelled from the spec: `Context::IsChannelSendThreadSafe` — whether the
underlying channel's send operation is documented thread-safe; `false` with
no channel. -/
def isChannelSendThreadSafe (s : ProxyState) : Bool :=
  match s.channel with
  | some c => c.sendThreadSafe
  | none => false

/-- Posting a task to the background context task runner: appended in post
order, per the spec's ordering guarantee. -/
def postTask (s : ProxyState) (t : ProxyTask) : ProxyState :=
  ⟨s.channel, s.ipcQueue ++ [t]⟩

/-- Modelled from the spec: `ChannelProxy::Context::Send(message,
force_io_thread)` backing `SendNow`, `SendOnIPCThread` and the deprecated
`Send`.  When not forced to the background context and the channel's send
is thread-safe, it takes the channel-reference lock and sends directly on
the caller's context; otherwise it posts a send task to the background
context.  The returned flag reports only whether the message was handed to
the channel or enqueued — never remote delivery. -/
def sendImpl (s : ProxyState) (m : Nat) (forceIoThread : Bool) :
    Bool × ProxyState :=
  if forceIoThread = true then (true, postTask s (ProxyTask.sendTask m))
  else if isChannelSendThreadSafe s = true then
    match s.channel with
    | some c => ((channelSend c m).1, ⟨some (channelSend c m).2, s.ipcQueue⟩)
    | none => (false, s)
  else (true, postTask s (ProxyTask.sendTask m))

/-- Modelled from the spec: `ChannelProxy::SendNow` — send as soon as
possible, on the caller's context if the channel send is thread-safe. -/
def sendNow (s : ProxyState) (m : Nat) : Bool × ProxyState :=
  sendImpl s m false

/-- Modelled from the spec: `ChannelProxy::SendOnIPCThread` — unconditionally
post the send to the background context. -/
def sendOnIPCThread (s : ProxyState) (m : Nat) : Bool × ProxyState :=
  sendImpl s m true

/-- Modelled from the spec: the deprecated `ChannelProxy::Send`, documented
in the header as an alias for `SendOnIPCThread`: it forces the background
context hop. -/
def send (s : ProxyState) (m : Nat) : Bool × ProxyState :=
  sendImpl s m true

/-- Modelled from the spec: `ChannelProxy::Close` — posts an asynchronous
teardown task to the background context and returns without blocking the
owner. -/
def close (s : ProxyState) : ProxyState :=
  postTask s ProxyTask.closeTask

/-- Modelled from the spec: the background context processing one posted
task — a send task hands the message to the channel if one is present; a
close task tears the channel down (clears the channel reference). -/
def processTask (s : ProxyState) (t : ProxyTask) : ProxyState :=
  match t with
  | ProxyTask.sendTask m =>
    match s.channel with
    | some c => ⟨some (channelSend c m).2, s.ipcQueue⟩
    | none => s
  | ProxyTask.closeTask => ⟨none, s.ipcQueue⟩

/-- The background context runs all queued tasks in post order. -/
def drainQueue (s : ProxyState) : ProxyState :=
  List.foldl processTask ⟨s.channel, []⟩ s.ipcQueue

/-- C7.  `SendNow` semantics: with a channel whose send is thread-safe, it
sends directly on the caller's context — the result is exactly the
channel's hand-off result, the channel is updated in place, and nothing is
posted to the background context (no cross-context hop); when the send is
not thread-safe it behaves identically to `SendOnIPCThread`, whose `true`
result only means the message was enqueued — the channel itself is
untouched at return time. -/
theorem c7_sendNow_fast_path_or_post (s : ProxyState) (m : Nat)
    (c : ChannelState) :
    (s.channel = some c → c.sendThreadSafe = true →
      sendNow s m = ((channelSend c m).1, ⟨some (channelSend c m).2, s.ipcQueue⟩) ∧
      (sendNow s m).2.ipcQueue = s.ipcQueue) ∧
    (isChannelSendThreadSafe s = false →
      sendNow s m = sendOnIPCThread s m ∧
      (sendNow s m).1 = true ∧
      (sendNow s m).2.channel = s.channel ∧
      (sendNow s m).2.ipcQueue = s.ipcQueue ++ [ProxyTask.sendTask m]) := by
  constructor
  · intro hc hts
    have hsafe : isChannelSendThreadSafe s = true := by
      simp [isChannelSendThreadSafe, hc, hts]
    have heq : sendNow s m =
        ((channelSend c m).1, ⟨some (channelSend c m).2, s.ipcQueue⟩) := by
      rw [sendNow, sendImpl, if_neg (by simp), if_pos hsafe, hc]
    exact ⟨heq, by rw [heq]⟩
  · intro hsafe
    have heq : sendNow s m = (true, postTask s (ProxyTask.sendTask m)) := by
      rw [sendNow, sendImpl, if_neg (by simp), if_neg (by simp [hsafe])]
    have heq2 : sendOnIPCThread s m = (true, postTask s (ProxyTask.sendTask m)) := by
      rw [sendOnIPCThread, sendImpl, if_pos rfl]
    rw [heq, heq2, postTask]
    exact ⟨rfl, rfl, rfl, rfl⟩

/-- C7 witness: a thread-safe channel (direct send) and a proxy without a
channel (posting path). -/
theorem c7_sendNow_fast_path_or_post_witness :
    (sendNow ⟨some ⟨true, fun _ => true, []⟩, []⟩ 5 =
      ((channelSend ⟨true, fun _ => true, []⟩ 5).1,
        ⟨some (channelSend ⟨true, fun _ => true, []⟩ 5).2, []⟩)) ∧
    sendNow ⟨none, []⟩ 5 = sendOnIPCThread ⟨none, []⟩ 5 :=
  ⟨((c7_sendNow_fast_path_or_post ⟨some ⟨true, fun _ => true, []⟩, []⟩ 5
      ⟨true, fun _ => true, []⟩).1 rfl rfl).1,
   ((c7_sendNow_fast_path_or_post ⟨none, []⟩ 5
      ⟨true, fun _ => true, []⟩).2 rfl).1⟩

/-- C8.  `Close` is idempotent and non-blocking: calling it twice leaves the
background context in the same state as calling it once (the redundant
teardown task is a no-op), and the call itself only appends a teardown task
to the background queue — it does not touch the channel on the owner's
context. -/
theorem c8_close_idempotent_nonblocking (s : ProxyState) :
    drainQueue (close (close s)) = drainQueue (close s) ∧
    (close s).channel = s.channel ∧
    (close s).ipcQueue = s.ipcQueue ++ [ProxyTask.closeTask] := by
  refine ⟨?_, rfl, rfl⟩
  rw [drainQueue, drainQueue, close, close, postTask, postTask]
  simp only [List.append_assoc, List.foldl_append]
  rfl

/-- C10.  The deprecated `Send` is an exact alias of `SendOnIPCThread`: for
every proxy state and message it returns the same hand-off result and the
same state, always posts the send task to the background context, and never
takes the thread-safe direct-send fast path (the channel is untouched even
when its send is thread-safe). -/
theorem c10_send_is_sendOnIPCThread (s : ProxyState) (m : Nat) :
    send s m = sendOnIPCThread s m ∧
    send s m = (true, ⟨s.channel, s.ipcQueue ++ [ProxyTask.sendTask m]⟩) ∧
    (send s m).2.channel = s.channel := by
  have h1 : send s m = (true, postTask s (ProxyTask.sendTask m)) := by
    rw [send, sendImpl, if_pos rfl]
  have h2 : sendOnIPCThread s m = (true, postTask s (ProxyTask.sendTask m)) := by
    rw [sendOnIPCThread, sendImpl, if_pos rfl]
  rw [h1, h2, postTask]
  exact ⟨rfl, rfl, rfl⟩

/-- Modelled from the spec: a message filter — an interceptor with an
identity and a "may handle a message, returning whether it consumed it"
capability (`OnMessageReceived` of `IPC::MessageFilter`). -/
structure Filter where
  fid : Nat
  consumes : Nat → Bool

/-- Events processed on the background (IPC) context, in queue order: a
posted filter splice (`OnAddFilter`), the channel connecting, and an
incoming message. -/
inductive ChEvent
  | addFilterEv (f : Filter)
  | connectEv
  | messageEv (m : Nat)

/-- State of the background context's filter dispatch: whether the channel
has connected, the active filter list in registration order, and the log of
`on_message` invocations as (filter id, message) pairs. -/
structure ChainState where
  connected : Bool
  filters : List Filter
  observed : List (Nat × Nat)

/-- Modelled from the spec: message delivery tries each active filter in
registration order until one reports "consumed"; every tried filter's
invocation is logged. -/
def offerChain : List Filter → Nat → List (Nat × Nat)
  | [], _ => []
  | f :: fs, m =>
    (f.fid, m) :: (if f.consumes m then [] else offerChain fs m)

/-- Modelled from the spec: the background context processing one queued
event — splicing a posted filter at the end of the active list, marking the
channel connected, or dispatching an incoming message through the filter
chain. -/
def chainStep (s : ChainState) : ChEvent → ChainState
  | ChEvent.addFilterEv f => ⟨s.connected, s.filters ++ [f], s.observed⟩
  | ChEvent.connectEv => ⟨true, s.filters, s.observed⟩
  | ChEvent.messageEv m =>
    ⟨s.connected, s.filters, s.observed ++ offerChain s.filters m⟩

/-- The background context runs a queue of events from the initial
(unconnected, no filters) state. -/
def runChain (evs : List ChEvent) : ChainState :=
  List.foldl chainStep ⟨false, [], []⟩ evs

theorem chainStep_filters_sub (s : ChainState) (ev : ChEvent) (f : Filter)
    (hf : f ∈ s.filters) : f ∈ (chainStep s ev).filters := by
  cases ev with
  | addFilterEv g => exact List.mem_append.mpr (Or.inl hf)
  | connectEv => exact hf
  | messageEv m => exact hf

theorem foldl_chainStep_filters_sub (s : ChainState) (evs : List ChEvent)
    (f : Filter) (hf : f ∈ s.filters) :
    f ∈ (List.foldl chainStep s evs).filters := by
  induction evs generalizing s with
  | nil => exact hf
  | cons ev t ih => exact ih (chainStep s ev) (chainStep_filters_sub s ev f hf)

theorem chainStep_observed_sub (s : ChainState) (ev : ChEvent)
    (p : Nat × Nat) (hp : p ∈ s.observed) : p ∈ (chainStep s ev).observed := by
  cases ev with
  | addFilterEv g => exact hp
  | connectEv => exact hp
  | messageEv m => exact List.mem_append.mpr (Or.inl hp)

theorem foldl_chainStep_observed_sub (s : ChainState) (evs : List ChEvent)
    (p : Nat × Nat) (hp : p ∈ s.observed) :
    p ∈ (List.foldl chainStep s evs).observed := by
  induction evs generalizing s with
  | nil => exact hp
  | cons ev t ih => exact ih (chainStep s ev) (chainStep_observed_sub s ev p hp)

theorem foldl_chainStep_addFilter_mem (s : ChainState) (evs : List ChEvent)
    (f : Filter) (hadd : ChEvent.addFilterEv f ∈ evs) :
    f ∈ (List.foldl chainStep s evs).filters := by
  induction evs generalizing s with
  | nil => cases hadd
  | cons ev t ih =>
    rcases List.mem_cons.mp hadd with heq | h2
    · rw [List.foldl_cons, ← heq]
      exact foldl_chainStep_filters_sub _ t f
        (List.mem_append.mpr (Or.inr (List.mem_cons_self f [])))
    · exact ih (chainStep s ev) h2

/-- Dispatch reaches every active filter unless a filter strictly ahead of
it in the chain consumes the message first. -/
theorem offerChain_reaches (fs : List Filter) (f : Filter) (m : Nat)
    (hf : f ∈ fs) :
    (f.fid, m) ∈ offerChain fs m ∨
    ∃ fs1 fs2, fs = fs1 ++ f :: fs2 ∧ ∃ g ∈ fs1, g.consumes m = true := by
  induction fs with
  | nil => cases hf
  | cons a t ih =>
    rcases List.mem_cons.mp hf with rfl | hft
    · exact Or.inl (List.mem_cons_self _ _)
    · by_cases hca : a.consumes m = true
      · obtain ⟨t1, t2, ht⟩ := List.append_of_mem hft
        exact Or.inr ⟨a :: t1, t2, by rw [ht]; rfl, a, List.mem_cons_self a t1, hca⟩
      · rcases ih hft with hmem | ⟨t1, t2, ht, g, hg, hgc⟩
        · refine Or.inl ?_
          rw [offerChain, if_neg hca]
          exact List.mem_cons_of_mem _ hmem
        · exact Or.inr ⟨a :: t1, t2, by rw [ht]; rfl, g, List.mem_cons_of_mem a hg, hgc⟩

/-- Processing further events only ever appends filters at the back of the
chain; existing chain order is preserved. -/
theorem foldl_chainStep_filters_extend (s : ChainState) (evs : List ChEvent) :
    ∃ ext, (List.foldl chainStep s evs).filters = s.filters ++ ext := by
  induction evs generalizing s with
  | nil => exact ⟨[], by simp⟩
  | cons ev t ih =>
    obtain ⟨ext, hext⟩ := ih (chainStep s ev)
    cases ev with
    | addFilterEv g =>
      refine ⟨[g] ++ ext, ?_⟩
      rw [List.foldl_cons, hext]
      simp [chainStep]
    | connectEv => exact ⟨ext, by rw [List.foldl_cons, hext]; rfl⟩
    | messageEv m2 => exact ⟨ext, by rw [List.foldl_cons, hext]; rfl⟩

theorem foldl_chainStep_observes (s : ChainState) (evs : List ChEvent)
    (f : Filter) (m : Nat)
    (hf : f ∈ s.filters) (hmsg : ChEvent.messageEv m ∈ evs) :
    (f.fid, m) ∈ (List.foldl chainStep s evs).observed ∨
    ∃ fs1 fs2, (List.foldl chainStep s evs).filters = fs1 ++ f :: fs2 ∧
      ∃ g ∈ fs1, g.consumes m = true := by
  induction evs generalizing s with
  | nil => cases hmsg
  | cons ev t ih =>
    rcases List.mem_cons.mp hmsg with heq | hmsg2
    · rw [List.foldl_cons, ← heq]
      rcases offerChain_reaches s.filters f m hf with hmem | ⟨fs1, fs2, hsplit, g, hg, hgc⟩
      · left
        apply foldl_chainStep_observed_sub
        exact List.mem_append.mpr (Or.inr hmem)
      · right
        obtain ⟨ext, hext⟩ :=
          foldl_chainStep_filters_extend (chainStep s (ChEvent.messageEv m)) t
        refine ⟨fs1, fs2 ++ ext, ?_, g, hg, hgc⟩
        rw [hext]
        show s.filters ++ ext = fs1 ++ f :: (fs2 ++ ext)
        rw [hsplit]
        simp
    · exact ih (chainStep s ev) (chainStep_filters_sub s ev f hf) hmsg2

/-- C9 as literally stated by the spec: a filter added before the channel
connects observes (has its message hook invoked for) every message received
after connection — "no message is skipped for it". -/
def filterPreConnectClaim : Prop :=
  ∀ (pre post : List ChEvent) (f : Filter) (m : Nat),
    (∀ ev ∈ pre, ∀ m2, ev ≠ ChEvent.messageEv m2) →
    ChEvent.addFilterEv f ∈ pre →
    ChEvent.messageEv m ∈ post →
    (f.fid, m) ∈ (runChain (pre ++ ChEvent.connectEv :: post)).observed

/-- C9 counterexample: the claim as stated is false — a filter added before
connection behind another filter that consumes every message never has its
message hook invoked, because dispatch stops at the first consuming filter
(spec section 4.1 delivery order). -/
theorem c9_filter_counterexample : ¬ filterPreConnectClaim := by
  intro hcl
  have h := hcl
    [ChEvent.addFilterEv ⟨0, fun _ => true⟩,
     ChEvent.addFilterEv ⟨1, fun _ => false⟩]
    [ChEvent.messageEv 5] ⟨1, fun _ => false⟩ 5
    (by
      intro ev hev m2
      rcases List.mem_cons.mp hev with rfl | hev2
      · intro hc; cases hc
      · rcases List.mem_cons.mp hev2 with rfl | hev3
        · intro hc; cases hc
        · cases hev3)
    (List.mem_cons_of_mem _ (List.mem_cons_self _ _))
    (List.mem_cons_self _ _)
  have hobs : (runChain
      ([ChEvent.addFilterEv ⟨0, fun _ => true⟩,
        ChEvent.addFilterEv ⟨1, fun _ => false⟩] ++
        ChEvent.connectEv :: [ChEvent.messageEv 5])).observed = [(0, 5)] := rfl
  rw [hobs] at h
  simp at h

/-- C9 amended.  A filter added before the channel connects is in the
active chain for every message received after connection: its message hook
is invoked for each such message unless a filter strictly ahead of it in
the chain consumes that message first.  Moreover a filter added only after
connection may miss a message that was dispatched earlier: there is a trace
with a connect, a message, and a later filter addition in which that filter
never observes the message. -/
theorem c9_pre_connect_filter (pre post : List ChEvent) (f : Filter) (m : Nat)
    (_hpre : ∀ ev ∈ pre, ∀ m2, ev ≠ ChEvent.messageEv m2)
    (hadd : ChEvent.addFilterEv f ∈ pre)
    (hmsg : ChEvent.messageEv m ∈ post) :
    ((f.fid, m) ∈ (runChain (pre ++ ChEvent.connectEv :: post)).observed ∨
      ∃ fs1 fs2, (runChain (pre ++ ChEvent.connectEv :: post)).filters =
          fs1 ++ f :: fs2 ∧ ∃ g ∈ fs1, g.consumes m = true) ∧
    (∃ g : Filter, ∃ m2 : Nat, ∃ evs : List ChEvent,
      ChEvent.connectEv ∈ evs ∧ ChEvent.addFilterEv g ∈ evs ∧
      ChEvent.messageEv m2 ∈ evs ∧
      (g.fid, m2) ∉ (runChain evs).observed) := by
  constructor
  · rw [runChain, List.foldl_append, List.foldl_cons]
    have hf1 : f ∈ (List.foldl chainStep ⟨false, [], []⟩ pre).filters :=
      foldl_chainStep_addFilter_mem _ pre f hadd
    have hf2 : f ∈ (chainStep (List.foldl chainStep ⟨false, [], []⟩ pre)
        ChEvent.connectEv).filters := hf1
    exact foldl_chainStep_observes _ post f m hf2 hmsg
  · refine ⟨⟨1, fun _ => false⟩, 3,
      [ChEvent.connectEv, ChEvent.messageEv 3,
       ChEvent.addFilterEv ⟨1, fun _ => false⟩], ?_, ?_, ?_, ?_⟩
    · exact List.mem_cons_self _ _
    · exact List.mem_cons_of_mem _ (List.mem_cons_of_mem _ (List.mem_cons_self _ _))
    · exact List.mem_cons_of_mem _ (List.mem_cons_self _ _)
    · intro hc
      have hobs : (runChain
          [ChEvent.connectEv, ChEvent.messageEv 3,
           ChEvent.addFilterEv ⟨1, fun _ => false⟩]).observed =
          ([] : List (Nat × Nat)) := rfl
      rw [hobs] at hc
      cases hc

/-- C9 amended witness: a single filter added before connection. -/
theorem c9_pre_connect_filter_witness :
    ((2, 5) ∈ (runChain ([ChEvent.addFilterEv ⟨2, fun _ => false⟩] ++
        ChEvent.connectEv :: [ChEvent.messageEv 5])).observed ∨
      ∃ fs1 fs2, (runChain ([ChEvent.addFilterEv ⟨2, fun _ => false⟩] ++
        ChEvent.connectEv :: [ChEvent.messageEv 5])).filters =
          fs1 ++ (⟨2, fun _ => false⟩ : Filter) :: fs2 ∧
        ∃ g ∈ fs1, g.consumes 5 = true) ∧
    (∃ g : Filter, ∃ m2 : Nat, ∃ evs : List ChEvent,
      ChEvent.connectEv ∈ evs ∧ ChEvent.addFilterEv g ∈ evs ∧
      ChEvent.messageEv m2 ∈ evs ∧
      (g.fid, m2) ∉ (runChain evs).observed) :=
  c9_pre_connect_filter [ChEvent.addFilterEv ⟨2, fun _ => false⟩]
    [ChEvent.messageEv 5] ⟨2, fun _ => false⟩ 5
    (by
      intro ev hev m2
      rcases List.mem_cons.mp hev with rfl | hev2
      · intro hc; cases hc
      · cases hev2)
    (List.mem_cons_self _ _) (List.mem_cons_self _ _)

end Libchrome
